import Mathlib

/-!
Shallow embedding of `gausskronrod.py`: adaptive Gauss-Kronrod quadrature.

Real (floating-point) numbers are embedded as rationals.  The two
irrational-valued primitives of the source, `math.sqrt` (line 73) and
`x ** 1.5` (line 52), are abstract parameters `rt` and `p15 : ℚ → ℚ`;
every theorem below holds for all choices of these parameters, and
witnesses instantiate them with concrete computable functions.

Python's `assert b > a` (an `AssertionError` escaping to the caller) is
embedded as `Except Unit`, `.error ()` being the raised precondition error.

The source's `while True` loop is embedded with an explicit fuel counter;
`none` means the fuel ran out (the fuel bound proved in `loopGK_isSome`
shows `limit + 1 - length` fuel always suffices, so this is only an
artifact of the embedding, not of the program).
-/

namespace GK

/-- The 15 Gauss-Kronrod abscissas of the source, exact decimal rationals.
The first seven are the shared G7 abscissas. -/
def gausskronrod_nodes : List ℚ :=
  [0.949107912342759, -0.949107912342759,
   0.741531185599394, -0.741531185599394,
   0.405845151377397, -0.405845151377397,
   0.000000000000000,
   0.991455371120813, -0.991455371120813,
   0.864864423359769, -0.864864423359769,
   0.586087235467691, -0.586087235467691,
   0.207784955007898, -0.207784955007898]

/-- The 7 Gauss weights of the source. -/
def gauss_weights : List ℚ :=
  [0.129484966168870, 0.129484966168870,
   0.279705391489277, 0.279705391489277,
   0.381830050505119, 0.381830050505119,
   0.417959183673469]

/-- The 15 Kronrod weights of the source. -/
def kronrod_weights : List ℚ :=
  [0.063092092629979, 0.063092092629979,
   0.140653259715525, 0.140653259715525,
   0.190350578064785, 0.190350578064785,
   0.209482141084728,
   0.022935322010529, 0.022935322010529,
   0.104790010322250, 0.104790010322250,
   0.169004726639267, 0.169004726639267,
   0.204432940075298, 0.204432940075298]

/-- `np.sum(xs * ys)` for two equal-length arrays: the dot product. -/
def dotp : List ℚ → List ℚ → ℚ
  | x :: xs, y :: ys => x * y + dotp xs ys
  | _, _ => 0

/-- The body of `integrate_gausskronrod` (source lines 45-54), after the
`assert`: the unguarded Gauss-Kronrod evaluation on `[a, b]`.
`p15` stands for `fun x => x ** 1.5`. -/
def gkRaw (p15 : ℚ → ℚ) (f : ℚ → ℚ) (a b : ℚ) : ℚ × ℚ :=
  let mid := 0.5 * (b + a)
  let dx := 0.5 * (b - a)
  let zi := gausskronrod_nodes.map fun z => mid + z * dx
  let integrand := zi.map f
  let integral_G7 := dotp (integrand.take 7) gauss_weights
  let integral_K15 := dotp integrand kronrod_weights
  let error := p15 (200 * |integral_G7 - integral_K15|)
  (integral_K15 * dx, dx * error)

/-- `integrate_gausskronrod(f, a, b, args=())` (source lines 31-54).
`assert b > a` raising `AssertionError` is the `.error ()` branch.
The `args` parameter is accepted (any type `α`) exactly as in the source. -/
def integrate_gausskronrod {α : Type} (p15 : ℚ → ℚ) (f : ℚ → ℚ) (a b : ℚ)
    (args : α) : Except Unit (ℚ × ℚ) :=
  if b > a then .ok (gkRaw p15 f a b) else .error ()

/-- One entry of the `intervals` list: the Python tuple `(err, left, right, I)`
inserted at source lines 68, 90, 92. -/
structure Interval where
  err : ℚ
  left : ℚ
  right : ℚ
  I : ℚ
deriving DecidableEq

/-- The tuple `(err, left, right, I)` under Python's lexicographic tuple
order, which is what `bisect.insort` and list comparison use. -/
def key (x : Interval) : ℚ ×ₗ ℚ ×ₗ ℚ ×ₗ ℚ :=
  toLex (x.err, toLex (x.left, toLex (x.right, x.I)))

/-- `bisect.insort(intervals, t)`: insert into a sorted list, after any
equal elements (Python `insort` = `insort_right`). -/
def insort (x : Interval) : List Interval → List Interval
  | [] => [x]
  | y :: ys => if key x < key y then x :: y :: ys else y :: insort x ys

/-- `intervals.pop()`: remove and return the LAST element of the list
(source line 82), together with the remaining list. `none` models the
`IndexError` on an empty list. -/
def popLast : List Interval → Option (Interval × List Interval)
  | [] => none
  | [x] => some (x, [])
  | x :: y :: ys =>
    match popLast (y :: ys) with
    | some (m, rest) => some (m, x :: rest)
    | none => none

/-- `Itotal = sum([x[3] for x in intervals])` (source line 71). -/
def sumI (l : List Interval) : ℚ := (l.map Interval.I).sum

/-- `err2 = sum([x[0]**2 for x in intervals])` (source line 72). -/
def sumErr2 (l : List Interval) : ℚ := (l.map fun x => x.err ^ 2).sum

/-- The convergence test `abs(err/Itotal) < tol` (source line 75), under
IEEE-754 semantics: when `Itotal` is zero the float quotient is `inf` or
`nan` (numpy float division by zero), and both compare `False` against any
finite `tol`; otherwise the comparison is the exact real one. -/
def convTest (Itotal errv tol : ℚ) : Bool :=
  if Itotal = 0 then false else decide (|errv / Itotal| < tol)

/-- The value `integrate` returns out of its loop: either the Python tuple
`(Itotal, err)` (source line 76) or the literal `False` (source line 80),
which carries no payload. -/
inductive PyRet where
  | tup (Itotal errv : ℚ)
  | pyFalse
deriving DecidableEq

/-- The `while True` loop of `integrate` (source lines 70-92), with fuel.
`rt` stands for `math.sqrt`. -/
def loopGK {α : Type} (rt p15 : ℚ → ℚ) (f : ℚ → ℚ) (args : α) (limit : ℕ)
    (tol : ℚ) : ℕ → List Interval → Option PyRet
  | 0, _ => none
  | fuel + 1, intervals =>
    let Itotal := sumI intervals
    let errv := rt (sumErr2 intervals)
    if convTest Itotal errv tol then some (.tup Itotal errv)
    else if limit ≤ intervals.length then some .pyFalse
    else
      match popLast intervals with
      | none => none
      | some (iv, rest) =>
        let mid := iv.left + (iv.right - iv.left) / 2
        match integrate_gausskronrod p15 f iv.left mid args,
              integrate_gausskronrod p15 f mid iv.right args with
        | .ok (I1, e1), .ok (I2, e2) =>
          loopGK rt p15 f args limit tol fuel
            (insort ⟨e2, mid, iv.right, I2⟩ (insort ⟨e1, iv.left, mid, I1⟩ rest))
        | _, _ => none

/-- `np.linspace(a, b, n+1)`: `n+1` equally spaced points from `a` to `b`. -/
def linspace (a b : ℚ) (n : ℕ) : List ℚ :=
  (List.range (n + 1)).map fun i : ℕ => a + (b - a) * (i : ℚ) / (n : ℚ)

/-- `zip(limits[:-1], limits[1:])` (source line 66). -/
def pairsOf (xs : List ℚ) : List (ℚ × ℚ) := xs.dropLast.zip xs.tail

/-- The initial-partition loop of `integrate` (source lines 63-68): run the
quadrature rule on each seed interval and `insort` the results, propagating
the `AssertionError` of a bad interval. -/
def initList {α : Type} (p15 : ℚ → ℚ) (f : ℚ → ℚ) (args : α) :
    List (ℚ × ℚ) → List Interval → Except Unit (List Interval)
  | [], acc => .ok acc
  | (l, r) :: ps, acc =>
    match integrate_gausskronrod p15 f l r args with
    | .ok (I0, e0) => initList p15 f args ps (insort ⟨e0, l, r, I0⟩ acc)
    | .error e => .error e

/-- `integrate(f, a, b, args=(), minintervals=1, limit=200, tol=1e-10)`
(source lines 57-92), with fuel for the unbounded loop. -/
def integrate {α : Type} (rt p15 : ℚ → ℚ) (f : ℚ → ℚ) (a b : ℚ) (args : α)
    (minintervals limit : ℕ) (tol : ℚ) (fuel : ℕ) :
    Except Unit (Option PyRet) :=
  match initList p15 f args (pairsOf (linspace a b minintervals)) [] with
  | .ok intervals => .ok (loopGK rt p15 f args limit tol fuel intervals)
  | .error e => .error e

/-- Sum of the widths of all intervals in the active list. -/
def wsum (l : List Interval) : ℚ := (l.map fun x => x.right - x.left).sum

/-- The active list is sorted ascending under the Python tuple order. -/
def sortedLex (l : List Interval) : Prop := l.Pairwise fun x y => key x ≤ key y

/-- Every interval of the list has positive width. -/
def allPos (l : List Interval) : Prop := ∀ iv ∈ l, iv.left < iv.right

/-- Every interval of the list carries a zero local integral estimate. -/
def allZeroI (l : List Interval) : Prop := ∀ iv ∈ l, iv.I = 0

/-- One non-terminal iteration of the refinement loop, as a relation:
the tolerance test failed, the count is below `limit`, the last (worst)
interval is popped and its two halves are inserted back. -/
def gkStep {α : Type} (rt p15 : ℚ → ℚ) (f : ℚ → ℚ) (args : α) (limit : ℕ)
    (tol : ℚ) (l l2 : List Interval) : Prop :=
  convTest (sumI l) (rt (sumErr2 l)) tol = false ∧
  l.length < limit ∧
  ∃ iv rest I1 e1 I2 e2,
    popLast l = some (iv, rest) ∧
    integrate_gausskronrod p15 f iv.left (iv.left + (iv.right - iv.left) / 2)
      args = .ok (I1, e1) ∧
    integrate_gausskronrod p15 f (iv.left + (iv.right - iv.left) / 2) iv.right
      args = .ok (I2, e2) ∧
    l2 = insort ⟨e2, iv.left + (iv.right - iv.left) / 2, iv.right, I2⟩
          (insort ⟨e1, iv.left, iv.left + (iv.right - iv.left) / 2, I1⟩ rest)

/-- States of the interval list reachable by the refinement loop from a
given starting list. -/
inductive Reach {α : Type} (rt p15 : ℚ → ℚ) (f : ℚ → ℚ) (args : α)
    (limit : ℕ) (tol : ℚ) : List Interval → List Interval → Prop
  | refl (l : List Interval) : Reach rt p15 f args limit tol l l
  | step {l0 l1 l2 : List Interval} : Reach rt p15 f args limit tol l0 l1 →
      gkStep rt p15 f args limit tol l1 l2 → Reach rt p15 f args limit tol l0 l2

/-! ### Basic lemmas about the embedded operations -/

theorem dotp_map_zero (g : ℚ → ℚ) (hg : ∀ x, g x = 0) :
    ∀ (l w : List ℚ), dotp (l.map g) w = 0
  | [], _ => rfl
  | _ :: _, [] => rfl
  | x :: xs, y :: ys => by
    simp only [List.map_cons, dotp, hg, dotp_map_zero g hg xs ys, zero_mul,
      add_zero]

theorem rule_ok_iff {α : Type} {p15 : ℚ → ℚ} {f : ℚ → ℚ} {a b : ℚ} {args : α}
    {r : ℚ × ℚ} :
    integrate_gausskronrod p15 f a b args = .ok r ↔ a < b ∧ r = gkRaw p15 f a b := by
  unfold integrate_gausskronrod
  split
  · simp only [Except.ok.injEq]
    constructor
    · intro h; exact ⟨by assumption, h.symm⟩
    · intro h; exact h.2.symm
  · simp only [reduceCtorEq, false_iff, not_and]
    intro h; exact absurd h (by assumption)

theorem rule_error_of_le {α : Type} {p15 : ℚ → ℚ} {f : ℚ → ℚ} {a b : ℚ}
    (args : α) (h : b ≤ a) :
    integrate_gausskronrod p15 f a b args = .error () := by
  unfold integrate_gausskronrod
  rw [if_neg (not_lt.2 h)]

theorem insort_perm (x : Interval) : ∀ l : List Interval, List.Perm (insort x l) (x :: l)
  | [] => by simp [insort]
  | y :: ys => by
    by_cases h : key x < key y
    · simp [insort, h]
    · simp only [insort, if_neg h]
      exact ((insort_perm x ys).cons y).trans (List.Perm.swap x y ys)

theorem mem_insort {y x : Interval} {l : List Interval} :
    y ∈ insort x l ↔ y = x ∨ y ∈ l := by
  simpa using (insort_perm x l).mem_iff

theorem length_insort (x : Interval) (l : List Interval) :
    (insort x l).length = l.length + 1 := by
  simpa using (insort_perm x l).length_eq

theorem sum_map_insort (g : Interval → ℚ) (x : Interval) (l : List Interval) :
    ((insort x l).map g).sum = g x + (l.map g).sum := by
  have h := ((insort_perm x l).map g).sum_eq
  simpa using h

theorem sortedLex_insort (x : Interval) :
    ∀ {l : List Interval}, sortedLex l → sortedLex (insort x l)
  | [], _ => by simp [sortedLex, insort]
  | y :: ys, h => by
    obtain ⟨hy, hys⟩ := List.pairwise_cons.1 h
    by_cases hk : key x < key y
    · rw [insort, if_pos hk]
      refine List.pairwise_cons.2 ⟨?_, h⟩
      intro z hz
      rcases List.mem_cons.1 hz with rfl | hz
      · exact le_of_lt hk
      · exact (le_of_lt hk).trans (hy z hz)
    · rw [insort, if_neg hk]
      refine List.pairwise_cons.2 ⟨?_, sortedLex_insort x hys⟩
      intro z hz
      rcases mem_insort.1 hz with rfl | hz
      · exact le_of_not_lt hk
      · exact hy z hz

theorem popLast_eq :
    ∀ {l : List Interval} {m : Interval} {rest : List Interval},
      popLast l = some (m, rest) → l = rest ++ [m]
  | [], m, rest => by simp [popLast]
  | [x], m, rest => by
    simp only [popLast, Option.some.injEq, Prod.mk.injEq]
    rintro ⟨rfl, rfl⟩; rfl
  | x :: y :: ys, m, rest => by
    simp only [popLast]
    cases h : popLast (y :: ys) with
    | none => simp
    | some p =>
      obtain ⟨m2, rest2⟩ := p
      have hrec := popLast_eq h
      simp only [Option.some.injEq, Prod.mk.injEq]
      rintro ⟨rfl, rfl⟩
      simp [hrec]

theorem popLast_isSome :
    ∀ {l : List Interval}, l ≠ [] → ∃ m rest, popLast l = some (m, rest)
  | [], h => absurd rfl h
  | [x], _ => ⟨x, [], rfl⟩
  | x :: y :: ys, _ => by
    obtain ⟨m, rest, hm⟩ := popLast_isSome (l := y :: ys) (by simp)
    exact ⟨m, x :: rest, by simp [popLast, hm]⟩

theorem err_le_of_key_le {x y : Interval} (h : key x ≤ key y) :
    x.err ≤ y.err := by
  rcases (Prod.Lex.le_iff _ _).1 h with h1 | ⟨h1, _⟩
  · exact le_of_lt h1
  · exact le_of_eq h1

theorem popLast_max {l rest : List Interval} {m : Interval}
    (hs : sortedLex l) (h : popLast l = some (m, rest)) :
    ∀ y ∈ l, y.err ≤ m.err := by
  have hl := popLast_eq h
  subst hl
  obtain ⟨-, -, hcross⟩ := List.pairwise_append.1 hs
  intro y hy
  rcases List.mem_append.1 hy with hy | hy
  · exact err_le_of_key_le (hcross y hy m (List.mem_singleton_self m))
  · rw [List.mem_singleton.1 hy]

theorem sortedLex_popLast {l rest : List Interval} {m : Interval}
    (hs : sortedLex l) (h : popLast l = some (m, rest)) : sortedLex rest := by
  have hl := popLast_eq h
  subst hl
  exact (List.pairwise_append.1 hs).1

/-! ### The initial partition -/

theorem initList_ok {α : Type} (p15 : ℚ → ℚ) (f : ℚ → ℚ) (args : α) :
    ∀ (ps : List (ℚ × ℚ)) (acc : List Interval), (∀ p ∈ ps, p.1 < p.2) →
      ∃ l, initList p15 f args ps acc = .ok l
  | [], acc, _ => ⟨acc, rfl⟩
  | (x, y) :: ps, acc, h => by
    have hxy : x < y := h (x, y) (by simp)
    obtain ⟨l, hl⟩ := initList_ok p15 f args ps
      (insort ⟨(gkRaw p15 f x y).2, x, y, (gkRaw p15 f x y).1⟩ acc)
      (fun p hp => h p (by simp [hp]))
    refine ⟨l, ?_⟩
    rw [initList, integrate_gausskronrod, if_pos hxy]
    exact hl

theorem initList_spec {α : Type} (p15 : ℚ → ℚ) (f : ℚ → ℚ) (args : α) :
    ∀ (ps : List (ℚ × ℚ)) (acc l : List Interval),
      initList p15 f args ps acc = .ok l →
      l.length = ps.length + acc.length ∧
      wsum l = wsum acc + (ps.map fun p => p.2 - p.1).sum ∧
      (∀ iv ∈ l, iv ∈ acc ∨ ∃ p ∈ ps, p.1 < p.2 ∧
        iv = ⟨(gkRaw p15 f p.1 p.2).2, p.1, p.2, (gkRaw p15 f p.1 p.2).1⟩) ∧
      (sortedLex acc → sortedLex l)
  | [], acc, l, h => by
    cases h
    exact ⟨by simp, by simp, fun iv hiv => Or.inl hiv, fun hs => hs⟩
  | (x, y) :: ps, acc, l, h => by
    by_cases hxy : x < y
    · rw [initList, integrate_gausskronrod, if_pos hxy] at h
      obtain ⟨h1, h2, h3, h4⟩ := initList_spec p15 f args ps _ l h
      refine ⟨?_, ?_, ?_, ?_⟩
      · rw [h1, length_insort]
        simp only [List.length_cons]
        omega
      · rw [h2]
        unfold wsum
        rw [sum_map_insort]
        simp only [List.map_cons, List.sum_cons]
        ring
      · intro iv hiv
        rcases h3 iv hiv with hacc | ⟨p, hp, hpl, hpe⟩
        · rcases mem_insort.1 hacc with rfl | hacc
          · exact Or.inr ⟨(x, y), by simp, hxy, rfl⟩
          · exact Or.inl hacc
        · exact Or.inr ⟨p, by simp [hp], hpl, hpe⟩
      · intro hs
        exact h4 (sortedLex_insort _ hs)
    · rw [initList, integrate_gausskronrod, if_neg hxy] at h
      cases h

theorem length_pairsOf (xs : List ℚ) : (pairsOf xs).length = xs.length - 1 := by
  simp [pairsOf]

theorem length_linspace (a b : ℚ) (n : ℕ) : (linspace a b n).length = n + 1 := by
  unfold linspace
  rw [List.length_map, List.length_range]

theorem getElem_linspace (a b : ℚ) (n : ℕ) (i : ℕ)
    (h : i < (linspace a b n).length) :
    (linspace a b n)[i] = a + (b - a) * i / n := by
  unfold linspace
  rw [List.getElem_map, List.getElem_range]

theorem mem_pairsOf_linspace {a b : ℚ} {n : ℕ} {p : ℚ × ℚ}
    (hp : p ∈ pairsOf (linspace a b n)) :
    ∃ i : ℕ, i < n ∧ p.1 = a + (b - a) * i / n ∧
      p.2 = a + (b - a) * (i + 1 : ℚ) / n := by
  obtain ⟨i, hi, hpe⟩ := List.mem_iff_getElem.1 hp
  have hlen : (pairsOf (linspace a b n)).length = n := by
    rw [length_pairsOf, length_linspace]; omega
  rw [hlen] at hi
  have hb1 : i < (linspace a b n).dropLast.length := by
    simp [length_linspace]; omega
  have hb2 : i < (linspace a b n).tail.length := by
    simp [length_linspace]; omega
  refine ⟨i, hi, ?_, ?_⟩
  · have h1 : p.1 = (linspace a b n).dropLast[i] := by
      rw [← hpe]; simp [pairsOf]
    rw [h1, List.getElem_dropLast, getElem_linspace]
  · have h2 : p.2 = (linspace a b n).tail[i] := by
      rw [← hpe]; simp [pairsOf]
    rw [h2, List.getElem_tail, getElem_linspace]
    push_cast
    ring_nf

theorem width_pairsOf_linspace {a b : ℚ} {n : ℕ} (hn : 1 ≤ n) {p : ℚ × ℚ}
    (hp : p ∈ pairsOf (linspace a b n)) : p.2 - p.1 = (b - a) / n := by
  obtain ⟨i, -, h1, h2⟩ := mem_pairsOf_linspace hp
  have hn0 : (n : ℚ) ≠ 0 := Nat.cast_ne_zero.2 (by omega)
  rw [h1, h2]
  field_simp
  ring

theorem pos_pairsOf_linspace {a b : ℚ} {n : ℕ} (hn : 1 ≤ n) (hab : a < b)
    {p : ℚ × ℚ} (hp : p ∈ pairsOf (linspace a b n)) : p.1 < p.2 := by
  have hw := width_pairsOf_linspace hn hp
  have hpos : 0 < (b - a) / n := by
    apply div_pos (by linarith)
    exact_mod_cast Nat.pos_of_ne_zero (by omega)
  linarith [hw]

theorem sum_widths_pairsOf_linspace (a b : ℚ) {n : ℕ} (hn : 1 ≤ n) :
    ((pairsOf (linspace a b n)).map fun p => p.2 - p.1).sum = b - a := by
  have hconst : (pairsOf (linspace a b n)).map (fun p => p.2 - p.1) =
      (pairsOf (linspace a b n)).map (fun _ => (b - a) / n) :=
    List.map_congr_left fun p hp => width_pairsOf_linspace hn hp
  rw [hconst]
  have hlen : (pairsOf (linspace a b n)).length = n := by
    rw [length_pairsOf, length_linspace]; omega
  rw [List.map_const', List.sum_replicate, hlen, nsmul_eq_mul]
  have hn0 : (n : ℚ) ≠ 0 := Nat.cast_ne_zero.2 (by omega)
  field_simp

/-! ### One refinement step -/

theorem gkStep_length {α : Type} {rt p15 f : ℚ → ℚ} {args : α} {limit : ℕ}
    {tol : ℚ} {l l2 : List Interval}
    (h : gkStep rt p15 f args limit tol l l2) : l2.length = l.length + 1 := by
  obtain ⟨-, -, iv, rest, I1, e1, I2, e2, hpop, -, -, rfl⟩ := h
  have hl := popLast_eq hpop
  rw [length_insort, length_insort, hl]
  simp

theorem gkStep_wsum {α : Type} {rt p15 f : ℚ → ℚ} {args : α} {limit : ℕ}
    {tol : ℚ} {l l2 : List Interval}
    (h : gkStep rt p15 f args limit tol l l2) : wsum l2 = wsum l := by
  obtain ⟨-, -, iv, rest, I1, e1, I2, e2, hpop, -, -, rfl⟩ := h
  have hl := popLast_eq hpop
  unfold wsum
  rw [sum_map_insort, sum_map_insort, hl]
  simp only [List.map_append, List.sum_append, List.map_cons, List.map_nil,
    List.sum_cons, List.sum_nil]
  ring

theorem gkStep_sorted {α : Type} {rt p15 f : ℚ → ℚ} {args : α} {limit : ℕ}
    {tol : ℚ} {l l2 : List Interval}
    (h : gkStep rt p15 f args limit tol l l2) (hs : sortedLex l) :
    sortedLex l2 := by
  obtain ⟨-, -, iv, rest, I1, e1, I2, e2, hpop, -, -, rfl⟩ := h
  exact sortedLex_insort _ (sortedLex_insort _ (sortedLex_popLast hs hpop))

theorem gkStep_allPos {α : Type} {rt p15 f : ℚ → ℚ} {args : α} {limit : ℕ}
    {tol : ℚ} {l l2 : List Interval}
    (h : gkStep rt p15 f args limit tol l l2) (hp : allPos l) : allPos l2 := by
  obtain ⟨-, -, iv, rest, I1, e1, I2, e2, hpop, -, -, rfl⟩ := h
  have hl := popLast_eq hpop
  have hiv : iv.left < iv.right := hp iv (by rw [hl]; simp)
  intro x hx
  rcases mem_insort.1 hx with rfl | hx
  · simp only
    linarith
  · rcases mem_insort.1 hx with rfl | hx
    · simp only
      linarith
    · exact hp x (by rw [hl]; exact List.mem_append_left _ hx)

theorem reach_wsum {α : Type} {rt p15 f : ℚ → ℚ} {args : α} {limit : ℕ}
    {tol : ℚ} {l0 l : List Interval}
    (h : Reach rt p15 f args limit tol l0 l) : wsum l = wsum l0 := by
  induction h with
  | refl => rfl
  | step _ hstep ih => rw [gkStep_wsum hstep, ih]

theorem reach_sorted {α : Type} {rt p15 f : ℚ → ℚ} {args : α} {limit : ℕ}
    {tol : ℚ} {l0 l : List Interval}
    (h : Reach rt p15 f args limit tol l0 l) (hs : sortedLex l0) :
    sortedLex l := by
  induction h with
  | refl => exact hs
  | step _ hstep ih => exact gkStep_sorted hstep ih

/-! ### Termination of the refinement loop -/

theorem loopGK_isSome {α : Type} (rt p15 f : ℚ → ℚ) (args : α) (limit : ℕ)
    (tol : ℚ) :
    ∀ (fuel : ℕ) (l : List Interval), allPos l → l ≠ [] → 1 ≤ fuel →
      limit + 1 ≤ fuel + l.length →
      (loopGK rt p15 f args limit tol fuel l).isSome
  | 0, l, _, _, hf, _ => absurd hf (by omega)
  | fuel + 1, l, hpos, hne, _, hcount => by
    by_cases hc : convTest (sumI l) (rt (sumErr2 l)) tol
    · simp [loopGK, hc]
    · by_cases hlim : limit ≤ l.length
      · simp [loopGK, hc, hlim]
      · obtain ⟨iv, rest, hpop⟩ := popLast_isSome hne
        have hl := popLast_eq hpop
        have hiv : iv.left < iv.right := hpos iv (by rw [hl]; simp)
        have hm1 : iv.left < iv.left + (iv.right - iv.left) / 2 := by linarith
        have hm2 : iv.left + (iv.right - iv.left) / 2 < iv.right := by linarith
        have hr1 : integrate_gausskronrod p15 f iv.left
            (iv.left + (iv.right - iv.left) / 2) args =
            .ok (gkRaw p15 f iv.left (iv.left + (iv.right - iv.left) / 2)) :=
          rule_ok_iff.2 ⟨hm1, rfl⟩
        have hr2 : integrate_gausskronrod p15 f
            (iv.left + (iv.right - iv.left) / 2) iv.right args =
            .ok (gkRaw p15 f (iv.left + (iv.right - iv.left) / 2) iv.right) :=
          rule_ok_iff.2 ⟨hm2, rfl⟩
        have hstep : gkStep rt p15 f args limit tol l
            (insort ⟨(gkRaw p15 f (iv.left + (iv.right - iv.left) / 2)
                iv.right).2,
              iv.left + (iv.right - iv.left) / 2, iv.right,
              (gkRaw p15 f (iv.left + (iv.right - iv.left) / 2) iv.right).1⟩
             (insort ⟨(gkRaw p15 f iv.left
                (iv.left + (iv.right - iv.left) / 2)).2,
              iv.left, iv.left + (iv.right - iv.left) / 2,
              (gkRaw p15 f iv.left
                (iv.left + (iv.right - iv.left) / 2)).1⟩ rest)) := by
          exact ⟨by simpa using hc, by omega, iv, rest,
            (gkRaw p15 f iv.left (iv.left + (iv.right - iv.left) / 2)).1,
            (gkRaw p15 f iv.left (iv.left + (iv.right - iv.left) / 2)).2,
            (gkRaw p15 f (iv.left + (iv.right - iv.left) / 2) iv.right).1,
            (gkRaw p15 f (iv.left + (iv.right - iv.left) / 2) iv.right).2,
            hpop, hr1, hr2, rfl⟩
        have hlen2 := gkStep_length hstep
        have := loopGK_isSome rt p15 f args limit tol fuel _
          (gkStep_allPos hstep hpos)
          (by intro hemp; rw [hemp] at hlen2; simp at hlen2)
          (by omega) (by omega)
        simpa [loopGK, hc, hlim, hpop, hr1, hr2] using this

theorem loopGK_no_tup_of_zero {α : Type} (rt p15 f : ℚ → ℚ) (args : α)
    (limit : ℕ) (tol : ℚ)
    (hz : ∀ x y : ℚ, x < y → (gkRaw p15 f x y).1 = 0) :
    ∀ (fuel : ℕ) (l : List Interval), allPos l → allZeroI l →
      ∀ v e, loopGK rt p15 f args limit tol fuel l ≠ some (.tup v e)
  | 0, l, _, _, v, e => by simp [loopGK]
  | fuel + 1, l, hpos, hzl, v, e => by
    have hI : sumI l = 0 := by
      apply List.sum_eq_zero
      intro x hx
      obtain ⟨iv, hiv, rfl⟩ := List.mem_map.1 hx
      exact hzl iv hiv
    have hc : convTest (sumI l) (rt (sumErr2 l)) tol = false := by
      rw [hI]; simp [convTest]
    by_cases hlim : limit ≤ l.length
    · simp [loopGK, hc, hlim]
    · by_cases hne : l = []
      · subst hne
        simp [loopGK, hc, hlim, popLast]
      · obtain ⟨iv, rest, hpop⟩ := popLast_isSome hne
        have hl := popLast_eq hpop
        have hiv : iv.left < iv.right := hpos iv (by rw [hl]; simp)
        have hm1 : iv.left < iv.left + (iv.right - iv.left) / 2 := by linarith
        have hm2 : iv.left + (iv.right - iv.left) / 2 < iv.right := by linarith
        have hr1 : integrate_gausskronrod p15 f iv.left
            (iv.left + (iv.right - iv.left) / 2) args =
            .ok (gkRaw p15 f iv.left (iv.left + (iv.right - iv.left) / 2)) :=
          rule_ok_iff.2 ⟨hm1, rfl⟩
        have hr2 : integrate_gausskronrod p15 f
            (iv.left + (iv.right - iv.left) / 2) iv.right args =
            .ok (gkRaw p15 f (iv.left + (iv.right - iv.left) / 2) iv.right) :=
          rule_ok_iff.2 ⟨hm2, rfl⟩
        have hstep : gkStep rt p15 f args limit tol l
            (insort ⟨(gkRaw p15 f (iv.left + (iv.right - iv.left) / 2)
                iv.right).2,
              iv.left + (iv.right - iv.left) / 2, iv.right,
              (gkRaw p15 f (iv.left + (iv.right - iv.left) / 2) iv.right).1⟩
             (insort ⟨(gkRaw p15 f iv.left
                (iv.left + (iv.right - iv.left) / 2)).2,
              iv.left, iv.left + (iv.right - iv.left) / 2,
              (gkRaw p15 f iv.left
                (iv.left + (iv.right - iv.left) / 2)).1⟩ rest)) := by
          exact ⟨hc, by omega, iv, rest,
            (gkRaw p15 f iv.left (iv.left + (iv.right - iv.left) / 2)).1,
            (gkRaw p15 f iv.left (iv.left + (iv.right - iv.left) / 2)).2,
            (gkRaw p15 f (iv.left + (iv.right - iv.left) / 2) iv.right).1,
            (gkRaw p15 f (iv.left + (iv.right - iv.left) / 2) iv.right).2,
            hpop, hr1, hr2, rfl⟩
        have hz2 : allZeroI (insort ⟨(gkRaw p15 f
              (iv.left + (iv.right - iv.left) / 2) iv.right).2,
            iv.left + (iv.right - iv.left) / 2, iv.right,
            (gkRaw p15 f (iv.left + (iv.right - iv.left) / 2) iv.right).1⟩
           (insort ⟨(gkRaw p15 f iv.left
              (iv.left + (iv.right - iv.left) / 2)).2,
            iv.left, iv.left + (iv.right - iv.left) / 2,
            (gkRaw p15 f iv.left
              (iv.left + (iv.right - iv.left) / 2)).1⟩ rest)) := by
          intro x hx
          rcases mem_insort.1 hx with rfl | hx
          · exact hz _ _ hm2
          · rcases mem_insort.1 hx with rfl | hx
            · exact hz _ _ hm1
            · exact hzl x (by rw [hl]; exact List.mem_append_left _ hx)
        have := loopGK_no_tup_of_zero rt p15 f args limit tol hz fuel _
          (gkStep_allPos hstep hpos) hz2 v e
        simpa [loopGK, hc, hlim, hpop, hr1, hr2] using this

/-! ### Helper evaluations and unfoldings shared by several results -/

theorem dotp_all_zero : ∀ (l w : List ℚ), (∀ x ∈ l, x = 0) → dotp l w = 0
  | [], [], _ => rfl
  | [], _ :: _, _ => rfl
  | _ :: _, [], _ => rfl
  | x :: xs, y :: ys, h => by
    rw [dotp, h x (by simp), dotp_all_zero xs ys fun z hz => h z (by simp [hz]),
      zero_mul, zero_add]

theorem gkRaw_zero (p15 : ℚ → ℚ) (a b : ℚ) :
    gkRaw p15 (fun _ => (0 : ℚ)) a b = (0, 0.5 * (b - a) * p15 0) := by
  have hK := dotp_map_zero (fun _ => (0 : ℚ)) (fun _ => rfl)
    (gausskronrod_nodes.map fun z => 0.5 * (b + a) + z * (0.5 * (b - a)))
    kronrod_weights
  have hG : dotp (((gausskronrod_nodes.map
      fun z => 0.5 * (b + a) + z * (0.5 * (b - a))).map
        fun _ => (0 : ℚ)).take 7) gauss_weights = 0 := by
    apply dotp_all_zero
    intro x hx
    obtain ⟨z, hz, rfl⟩ := List.mem_map.1 (List.take_subset 7 _ hx)
    rfl
  simp only [gkRaw, hK, hG, sub_zero, abs_zero, mul_zero, zero_mul]

theorem linspace_zero_one : linspace 0 1 1 = [0, 1] := by
  unfold linspace
  simp [List.range_succ]

theorem initList_zero_one :
    initList id (fun _ => (0 : ℚ)) () (pairsOf (linspace 0 1 1)) [] =
      .ok [⟨0, 0, 1, 0⟩] := by
  rw [linspace_zero_one]
  have hp : pairsOf [(0 : ℚ), 1] = [(0, 1)] := rfl
  rw [hp, initList]
  have hr : integrate_gausskronrod id (fun _ => (0 : ℚ)) 0 1 () = .ok (0, 0) :=
    rule_ok_iff.2 ⟨by norm_num, by rw [gkRaw_zero]; simp⟩
  rw [hr]
  rfl

theorem integrate_eq_of_init {α : Type} (rt p15 f : ℚ → ℚ) (args : α)
    {a b : ℚ} {mi : ℕ} (limit : ℕ) (tol : ℚ) (fuel : ℕ) {l0 : List Interval}
    (hinit : initList p15 f args (pairsOf (linspace a b mi)) [] = .ok l0) :
    integrate rt p15 f a b args mi limit tol fuel =
      .ok (loopGK rt p15 f args limit tol fuel l0) := by
  unfold integrate
  rw [hinit]

theorem initSeed_length {α : Type} {p15 f : ℚ → ℚ} {args : α} {a b : ℚ}
    {mi : ℕ} {l0 : List Interval}
    (hinit : initList p15 f args (pairsOf (linspace a b mi)) [] = .ok l0) :
    l0.length = mi := by
  obtain ⟨hlen, -, -, -⟩ := initList_spec p15 f args _ _ _ hinit
  rw [hlen, length_pairsOf, length_linspace]
  simp

theorem initSeed_allPos {α : Type} {p15 f : ℚ → ℚ} {args : α} {a b : ℚ}
    {mi : ℕ} {l0 : List Interval}
    (hinit : initList p15 f args (pairsOf (linspace a b mi)) [] = .ok l0) :
    allPos l0 := by
  obtain ⟨-, -, hmem, -⟩ := initList_spec p15 f args _ _ _ hinit
  intro iv hiv
  rcases hmem iv hiv with h | ⟨p, hp, hplt, rfl⟩
  · exact absurd h (List.not_mem_nil iv)
  · exact hplt

theorem initList_args_irrel {α : Type} (p15 f : ℚ → ℚ) (args args2 : α) :
    ∀ (ps : List (ℚ × ℚ)) (acc : List Interval),
      initList p15 f args ps acc = initList p15 f args2 ps acc
  | [], _ => rfl
  | (x, y) :: ps, acc => by
    by_cases hxy : x < y
    · rw [initList, initList, integrate_gausskronrod, if_pos hxy,
        integrate_gausskronrod, if_pos hxy]
      exact initList_args_irrel p15 f args args2 ps _
    · simp [initList, integrate_gausskronrod, hxy]

theorem loopGK_args_irrel {α : Type} (rt p15 f : ℚ → ℚ) (args args2 : α)
    (limit : ℕ) (tol : ℚ) :
    ∀ (fuel : ℕ) (l : List Interval),
      loopGK rt p15 f args limit tol fuel l =
        loopGK rt p15 f args2 limit tol fuel l
  | 0, _ => rfl
  | fuel + 1, l => by
    by_cases hc : convTest (sumI l) (rt (sumErr2 l)) tol
    · simp [loopGK, hc]
    · by_cases hlim : limit ≤ l.length
      · simp [loopGK, hc, hlim]
      · cases hpop : popLast l with
        | none => simp [loopGK, hc, hlim, hpop]
        | some p =>
          obtain ⟨iv, rest⟩ := p
          by_cases h1 : iv.left < iv.left + (iv.right - iv.left) / 2
          · by_cases h2 : iv.left + (iv.right - iv.left) / 2 < iv.right
            · simp [loopGK, hc, hlim, hpop, integrate_gausskronrod, h1, h2,
                loopGK_args_irrel rt p15 f args args2 limit tol fuel]
            · simp [loopGK, hc, hlim, hpop, integrate_gausskronrod, h1, h2]
          · simp [loopGK, hc, hlim, hpop, integrate_gausskronrod, h1]

/-! ### The claims -/

/-- C1: at the interval-count limit, `integrate` returns the bare Python
literal `False` — a value that carries no `(value, error)` payload — here
evaluated on a concrete run (`f = 0`, `a = 0`, `b = 1`, `limit = 1`,
`minintervals = 1`, `tol = 1e-10`) that exhausts the limit.  The spec's
claim that a ConvergenceFailure carrying the achieved `(value, error)`
state is returned does not hold of the source. -/
theorem limit_return_is_bare_false :
    integrate id id (fun _ => (0 : ℚ)) 0 1 () 1 1 (1 / 10 ^ 10) 2 =
      .ok (some .pyFalse) := by
  rw [integrate_eq_of_init id id (fun _ => (0 : ℚ)) () 1 (1 / 10 ^ 10) 2
    initList_zero_one]
  have hsum : sumI [(⟨0, 0, 1, 0⟩ : Interval)] = 0 := by simp [sumI]
  have hc : ∀ ev tv : ℚ, convTest (sumI [(⟨0, 0, 1, 0⟩ : Interval)]) ev tv =
      false := by
    intro ev tv; rw [hsum]; simp [convTest]
  simp [loopGK, hc]

/-- C2: for `b > a`, `integrate_gausskronrod` evaluates `f` at the fifteen
points `a + (z+1)*(b-a)/2`, returns as integral the dot product of the
fifteen values with the 15 Kronrod weights scaled by `(b-a)/2`, and as
error `p15 (200*|G7 - K15|) * (b-a)/2` where `p15 x` models `x ** 1.5`,
`G7` is the Gauss dot product over the seven shared abscissas and `K15`
the unscaled Kronrod dot product. -/
theorem quadrature_rule_formula {α : Type} (p15 : ℚ → ℚ) (f : ℚ → ℚ)
    (a b : ℚ) (args : α) (hab : b > a) :
    ((gausskronrod_nodes.map fun z => a + (z + 1) * (b - a) / 2).map
        f).length = 15 ∧
    integrate_gausskronrod p15 f a b args =
      .ok (dotp ((gausskronrod_nodes.map
              fun z => a + (z + 1) * (b - a) / 2).map f) kronrod_weights *
            ((b - a) / 2),
          ((b - a) / 2) *
            p15 (200 *
              |dotp (((gausskronrod_nodes.map
                    fun z => a + (z + 1) * (b - a) / 2).map f).take 7)
                  gauss_weights -
                dotp ((gausskronrod_nodes.map
                    fun z => a + (z + 1) * (b - a) / 2).map f)
                  kronrod_weights|)) := by
  constructor
  · rfl
  · rw [integrate_gausskronrod, if_pos hab]
    have hmap : (gausskronrod_nodes.map
        fun z => 0.5 * (b + a) + z * (0.5 * (b - a))) =
        gausskronrod_nodes.map fun z => a + (z + 1) * (b - a) / 2 :=
      List.map_congr_left fun z _ => by ring
    simp only [gkRaw, hmap, Except.ok.injEq, Prod.mk.injEq]
    constructor
    · ring
    · ring

/-- C3: each iteration of the loop first evaluates the tolerance test and,
when it holds, returns `(Itotal, Etotal)`; only when it fails is the count
compared against `limit` and the bare failure returned; otherwise the last
(worst) interval is popped, bisected at `left + (right-left)/2`, both halves
are inserted and the loop continues. -/
theorem loop_checks_tolerance_then_limit {α : Type} (rt p15 f : ℚ → ℚ)
    (args : α) (limit : ℕ) (tol : ℚ) (fuel : ℕ) (l : List Interval) :
    (convTest (sumI l) (rt (sumErr2 l)) tol = true →
      loopGK rt p15 f args limit tol (fuel + 1) l =
        some (.tup (sumI l) (rt (sumErr2 l)))) ∧
    (convTest (sumI l) (rt (sumErr2 l)) tol = false → limit ≤ l.length →
      loopGK rt p15 f args limit tol (fuel + 1) l = some .pyFalse) ∧
    (∀ iv rest I1 e1 I2 e2,
      convTest (sumI l) (rt (sumErr2 l)) tol = false → l.length < limit →
      popLast l = some (iv, rest) →
      integrate_gausskronrod p15 f iv.left
        (iv.left + (iv.right - iv.left) / 2) args = .ok (I1, e1) →
      integrate_gausskronrod p15 f (iv.left + (iv.right - iv.left) / 2)
        iv.right args = .ok (I2, e2) →
      loopGK rt p15 f args limit tol (fuel + 1) l =
        loopGK rt p15 f args limit tol fuel
          (insort ⟨e2, iv.left + (iv.right - iv.left) / 2, iv.right, I2⟩
            (insort ⟨e1, iv.left, iv.left + (iv.right - iv.left) / 2, I1⟩
              rest))) := by
  refine ⟨fun hc => by simp [loopGK, hc],
    fun hc hlim => by simp [loopGK, hc, hlim], ?_⟩
  intro iv rest I1 e1 I2 e2 hc hlt hpop hr1 hr2
  simp [loopGK, hc, hpop, hr1, hr2, not_le.2 hlt]

/-- C4: bounds with `b ≤ a` make the quadrature rule fail its precondition,
and `integrate` (with the default `minintervals = 1`) propagates the same
failure immediately from its very first rule evaluation. -/
theorem precondition_b_le_a {α : Type} (rt p15 f : ℚ → ℚ) (args : α)
    (limit : ℕ) (tol : ℚ) (fuel : ℕ) {a b : ℚ} (hba : b ≤ a) :
    integrate_gausskronrod p15 f a b args = .error () ∧
    integrate rt p15 f a b args 1 limit tol fuel = .error () := by
  refine ⟨rule_error_of_le args hba, ?_⟩
  have hls : linspace a b 1 = [a, b] := by
    unfold linspace
    simp [List.range_succ]
  have hp2 : pairsOf [a, b] = [(a, b)] := rfl
  unfold integrate
  rw [hls, hp2, initList, rule_error_of_le args hba]

/-- C5: the initial partition has `minintervals` subintervals, each of
width `(b-a)/minintervals`, and every interval list reachable by the
refinement loop (which replaces the popped `[left, right)` by
`[left, mid)` and `[mid, right)` with `mid = left + (right-left)/2`)
has total width exactly `b - a`. -/
theorem partition_width_invariant {α : Type} (rt p15 f : ℚ → ℚ) (args : α)
    (limit : ℕ) (tol : ℚ) {a b : ℚ} {mi : ℕ} (hab : a < b) (hmi : 1 ≤ mi)
    {l0 l : List Interval}
    (hinit : initList p15 f args (pairsOf (linspace a b mi)) [] = .ok l0)
    (hreach : Reach rt p15 f args limit tol l0 l) :
    l0.length = mi ∧
    (∀ iv ∈ l0, iv.right - iv.left = (b - a) / (mi : ℚ)) ∧
    wsum l = b - a := by
  obtain ⟨-, hws, hmem, -⟩ := initList_spec p15 f args _ _ _ hinit
  refine ⟨initSeed_length hinit, ?_, ?_⟩
  · intro iv hiv
    rcases hmem iv hiv with h | ⟨p, hp, hplt, rfl⟩
    · exact absurd h (List.not_mem_nil iv)
    · exact width_pairsOf_linspace hmi hp
  · have h1 : wsum l0 = b - a := by
      rw [hws, sum_widths_pairsOf_linspace a b hmi]
      simp [wsum]
    rw [reach_wsum hreach, h1]

/-- C6: the aggregate an iteration computes and, on convergence, returns is
exactly the sum of the per-interval `I` values paired with `rt` (the model
of `math.sqrt`) applied to the sum of the squared per-interval errors. -/
theorem total_is_sum_and_rss {α : Type} (rt p15 f : ℚ → ℚ) (args : α)
    (limit : ℕ) (tol : ℚ) (fuel : ℕ) (l : List Interval)
    (hc : convTest ((l.map Interval.I).sum)
        (rt ((l.map fun x => x.err ^ 2).sum)) tol = true) :
    loopGK rt p15 f args limit tol (fuel + 1) l =
      some (.tup ((l.map Interval.I).sum)
        (rt ((l.map fun x => x.err ^ 2).sum))) := by
  simp [loopGK, sumI, sumErr2, hc]

/-- C7: every interval list reachable by the loop, which only grows by
`insort` insertions, is sorted ascending (in the tuple order, hence in
particular by error estimate), and popping always returns an interval of
maximal error estimate. -/
theorem intervals_sorted_and_pop_max {α : Type} (rt p15 f : ℚ → ℚ)
    (args : α) (limit : ℕ) (tol : ℚ) {a b : ℚ} {mi : ℕ}
    {l0 l : List Interval}
    (hinit : initList p15 f args (pairsOf (linspace a b mi)) [] = .ok l0)
    (hreach : Reach rt p15 f args limit tol l0 l) :
    sortedLex l ∧ (l.Pairwise fun x y => x.err ≤ y.err) ∧
    ∀ m rest, popLast l = some (m, rest) → ∀ y ∈ l, y.err ≤ m.err := by
  obtain ⟨-, -, -, hsorted⟩ := initList_spec p15 f args _ _ _ hinit
  have hs : sortedLex l :=
    reach_sorted hreach (hsorted (by simp [sortedLex]))
  exact ⟨hs, hs.imp fun h => err_le_of_key_le h,
    fun m rest hpop => popLast_max hs hpop⟩

/-- C8: when the total integral estimate at the head of an iteration is
zero the tolerance test is false regardless of the error estimate and the
tolerance (modelling the IEEE quotient `inf`/`nan` comparing false), and
when every subinterval quadrature yields a zero integral (e.g. an integrand
antisymmetric about each midpoint) `integrate` can never return through the
CONVERGED branch: it returns the limit-branch failure. -/
theorem zero_total_cannot_converge {α : Type} (rt p15 f : ℚ → ℚ) (args : α)
    (a b : ℚ) (mi limit : ℕ) (tol : ℚ) (hab : a < b) (hmi : 1 ≤ mi)
    (hz : ∀ x y : ℚ, x < y → (gkRaw p15 f x y).1 = 0) :
    (∀ errv tolv : ℚ, convTest 0 errv tolv = false) ∧
    (∀ fuel v e, integrate rt p15 f a b args mi limit tol fuel ≠
      .ok (some (.tup v e))) ∧
    integrate rt p15 f a b args mi limit tol (limit - mi + 1) =
      .ok (some .pyFalse) := by
  obtain ⟨l0, hinit⟩ := initList_ok p15 f args _ []
    (fun p hp => pos_pairsOf_linspace hmi hab hp)
  obtain ⟨-, -, hmem, -⟩ := initList_spec p15 f args _ _ _ hinit
  have hzl : allZeroI l0 := by
    intro iv hiv
    rcases hmem iv hiv with h | ⟨p, hp, hplt, rfl⟩
    · exact absurd h (List.not_mem_nil iv)
    · exact hz p.1 p.2 hplt
  have hpos := initSeed_allPos hinit
  have hlen0 := initSeed_length hinit
  refine ⟨fun errv tolv => by simp [convTest], ?_, ?_⟩
  · intro fuel v e hcontra
    rw [integrate_eq_of_init rt p15 f args limit tol fuel hinit] at hcontra
    exact loopGK_no_tup_of_zero rt p15 f args limit tol hz fuel l0 hpos hzl
      v e (Except.ok.inj hcontra)
  · have hne : l0 ≠ [] := by
      intro h; rw [h] at hlen0; simp at hlen0; omega
    have hsome := loopGK_isSome rt p15 f args limit tol (limit - mi + 1) l0
      hpos hne (by omega) (by rw [hlen0]; omega)
    obtain ⟨r, hr⟩ := Option.isSome_iff_exists.1 hsome
    rw [integrate_eq_of_init rt p15 f args limit tol _ hinit, hr]
    cases r with
    | tup v e =>
      exact absurd hr
        (loopGK_no_tup_of_zero rt p15 f args limit tol hz (limit - mi + 1)
          l0 hpos hzl v e)
    | pyFalse => rfl

/-- C9: the `args` parameter of both entry points is never passed to the
integrand and never used: two calls differing only in `args` are equal. -/
theorem args_never_used {α : Type} (rt p15 f : ℚ → ℚ) (a b : ℚ)
    (args args2 : α) (minintervals limit : ℕ) (tol : ℚ) (fuel : ℕ) :
    integrate_gausskronrod p15 f a b args =
      integrate_gausskronrod p15 f a b args2 ∧
    integrate rt p15 f a b args minintervals limit tol fuel =
      integrate rt p15 f a b args2 minintervals limit tol fuel := by
  refine ⟨rfl, ?_⟩
  unfold integrate
  rw [initList_args_irrel p15 f args args2]
  cases h : initList p15 f args2 (pairsOf (linspace a b minintervals)) [] with
  | ok l =>
    exact congrArg Except.ok
      (loopGK_args_irrel rt p15 f args args2 limit tol fuel l)
  | error e => rfl

/-- C10: a non-terminal iteration increases the interval count by exactly
one, and from `minintervals ≥ 1` seed intervals the loop reaches a terminal
state (success or failure) within `limit - minintervals + 1` iterations. -/
theorem loop_terminates_within_limit {α : Type} (rt p15 f : ℚ → ℚ)
    (args : α) (a b : ℚ) (mi limit : ℕ) (tol : ℚ)
    (hab : a < b) (hmi : 1 ≤ mi) :
    (∀ l l2 : List Interval, gkStep rt p15 f args limit tol l l2 →
      l2.length = l.length + 1) ∧
    ∃ r, integrate rt p15 f a b args mi limit tol (limit - mi + 1) =
      .ok (some r) := by
  refine ⟨fun l l2 h => gkStep_length h, ?_⟩
  obtain ⟨l0, hinit⟩ := initList_ok p15 f args _ []
    (fun p hp => pos_pairsOf_linspace hmi hab hp)
  have hlen0 := initSeed_length hinit
  have hne : l0 ≠ [] := by
    intro h
    rw [h] at hlen0
    simp at hlen0
    omega
  have hsome := loopGK_isSome rt p15 f args limit tol (limit - mi + 1) l0
    (initSeed_allPos hinit) hne (by omega) (by rw [hlen0]; omega)
  obtain ⟨r, hr⟩ := Option.isSome_iff_exists.1 hsome
  exact ⟨r, by
    rw [integrate_eq_of_init rt p15 f args limit tol _ hinit, hr]⟩

/-! ### Witnesses -/

/-- Witness for C2 at `f = id`, `a = 0`, `b = 2`. -/
theorem quadrature_rule_formula_witness :
    ((gausskronrod_nodes.map fun z => (0 : ℚ) + (z + 1) * (2 - 0) / 2).map
        (fun x : ℚ => x)).length = 15 ∧
    integrate_gausskronrod id (fun x : ℚ => x) 0 2 () =
      .ok (dotp ((gausskronrod_nodes.map
              fun z => (0 : ℚ) + (z + 1) * (2 - 0) / 2).map
              (fun x : ℚ => x)) kronrod_weights * (((2 : ℚ) - 0) / 2),
          (((2 : ℚ) - 0) / 2) *
            id (200 *
              |dotp (((gausskronrod_nodes.map
                    fun z => (0 : ℚ) + (z + 1) * (2 - 0) / 2).map
                    (fun x : ℚ => x)).take 7) gauss_weights -
                dotp ((gausskronrod_nodes.map
                    fun z => (0 : ℚ) + (z + 1) * (2 - 0) / 2).map
                    (fun x : ℚ => x)) kronrod_weights|)) :=
  quadrature_rule_formula id (fun x => x) 0 2 () (by decide)

/-- Witness for C3: a state whose tolerance test holds converges. -/
theorem loop_checks_tolerance_then_limit_witness :
    loopGK id id (fun x : ℚ => x) () 200 2 1 [⟨1, 0, 1, 1⟩] =
      some (.tup (sumI [⟨1, 0, 1, 1⟩]) (id (sumErr2 [⟨1, 0, 1, 1⟩]))) :=
  (loop_checks_tolerance_then_limit id id (fun x => x) () 200 2 0
    [⟨1, 0, 1, 1⟩]).1 (by simp [convTest, sumI, sumErr2])

/-- Witness for C4 at `a = b = 5`. -/
theorem precondition_b_le_a_witness :
    integrate_gausskronrod id (fun x : ℚ => x) 5 5 () = .error () ∧
    integrate id id (fun x : ℚ => x) 5 5 () 1 200 (1 / 10 ^ 10) 1 =
      .error () :=
  precondition_b_le_a id id (fun x => x) () 200 (1 / 10 ^ 10) 1 (le_refl 5)

/-- Witness for C5 on the concrete seed partition of `[0, 1]`. -/
theorem partition_width_invariant_witness :
    [(⟨0, 0, 1, 0⟩ : Interval)].length = 1 ∧
    (∀ iv ∈ [(⟨0, 0, 1, 0⟩ : Interval)],
      iv.right - iv.left = ((1 : ℚ) - 0) / ((1 : ℕ) : ℚ)) ∧
    wsum [⟨0, 0, 1, 0⟩] = 1 - 0 :=
  partition_width_invariant id id (fun _ => (0 : ℚ)) () 200 (1 / 10 ^ 10)
    (by decide) (le_refl 1) initList_zero_one (Reach.refl _)

/-- Witness for C6: a converging state returns the sum and the root of the
sum of squares. -/
theorem total_is_sum_and_rss_witness :
    loopGK id id (fun x : ℚ => x) () 200 2 1 [⟨1, 0, 2, 1⟩] =
      some (.tup (([(⟨1, 0, 2, 1⟩ : Interval)]).map Interval.I).sum
        (id (([(⟨1, 0, 2, 1⟩ : Interval)]).map fun x => x.err ^ 2).sum)) :=
  total_is_sum_and_rss id id (fun x => x) () 200 2 0 [⟨1, 0, 2, 1⟩]
    (by simp [convTest])

/-- Witness for C7 on the concrete seed partition of `[0, 1]`. -/
theorem intervals_sorted_and_pop_max_witness :
    sortedLex [(⟨0, 0, 1, 0⟩ : Interval)] ∧
    ([(⟨0, 0, 1, 0⟩ : Interval)].Pairwise fun x y => x.err ≤ y.err) ∧
    ∀ m rest, popLast [(⟨0, 0, 1, 0⟩ : Interval)] = some (m, rest) →
      ∀ y ∈ [(⟨0, 0, 1, 0⟩ : Interval)], y.err ≤ m.err :=
  intervals_sorted_and_pop_max id id (fun _ => (0 : ℚ)) () 200 (1 / 10 ^ 10)
    initList_zero_one (Reach.refl _)

/-- Witness for C8 at the zero integrand on `[0, 1]` with `limit = 1`. -/
theorem zero_total_cannot_converge_witness :
    (∀ errv tolv : ℚ, convTest 0 errv tolv = false) ∧
    (∀ fuel v e, integrate id id (fun _ => (0 : ℚ)) 0 1 () 1 1
      (1 / 10 ^ 10) fuel ≠ .ok (some (.tup v e))) ∧
    integrate id id (fun _ => (0 : ℚ)) 0 1 () 1 1 (1 / 10 ^ 10)
      (1 - 1 + 1) = .ok (some .pyFalse) :=
  zero_total_cannot_converge id id (fun _ => (0 : ℚ)) () 0 1 1 1
    (1 / 10 ^ 10) (by decide) (le_refl 1)
    (fun x y h => by rw [gkRaw_zero])

/-- Witness for C10 at the zero integrand on `[0, 1]` with `limit = 1`. -/
theorem loop_terminates_within_limit_witness :
    (∀ l l2 : List Interval,
      gkStep id id (fun _ => (0 : ℚ)) () 1 (1 / 10 ^ 10) l l2 →
      l2.length = l.length + 1) ∧
    ∃ r, integrate id id (fun _ => (0 : ℚ)) 0 1 () 1 1 (1 / 10 ^ 10)
      (1 - 1 + 1) = .ok (some r) :=
  loop_terminates_within_limit id id (fun _ => (0 : ℚ)) () 0 1 1 1
    (1 / 10 ^ 10) (by decide) (le_refl 1)

end GK
